import Mathlib

/-!
Verification of the bufhash partition-buffer adapter.

The development shallowly embeds `src/src/partitioned.rs`: the chunk-hasher
trait `Hasher<const N: usize>` becomes a structure of two functions over an
abstract state type, and the adapter `PartitionedHasher<N, H>` becomes a
structure holding a chunk-hasher state and the carry buffer, with `write` and
`finish` transliterated from the Rust method bodies.  Bytes (Rust `u8`) are
embedded as `Nat`; the adapter logic never inspects byte values.
-/

namespace Bufhash

/-- The chunk-hasher capability (the trait `Hasher<const N: usize>` of the
source, over a state type `σ`): `write` folds one full `N`-byte partition into
the state, `finish` produces the 64-bit digest from the state and the leftover
tail bytes. -/
structure Hasher (σ : Type) where
  write : σ → List Nat → σ
  finish : σ → List Nat → Nat

/-- The adapter state of `PartitionedHasher<N, H>`: the inner chunk-hasher
state and the carry buffer of bytes not yet forming a full partition. -/
structure PartitionedHasher (σ : Type) where
  hasher : σ
  buffer : List Nat
deriving DecidableEq

variable {σ : Type}

/-- `PartitionedHasher::new`: empty carry buffer, given initial chunk-hasher
state.  The `Vec::with_capacity(N)` of the source is a performance hint only
and has no observable counterpart here. -/
def PartitionedHasher.new (s : σ) : PartitionedHasher σ :=
  ⟨s, []⟩

/-- The partition-emission loop of `write` (step 2 of the source): while at
least `N` bytes remain, consume the next `N` bytes as one partition and
advance.  The loop is given fuel, one unit per byte, which suffices because
each iteration removes `N ≥ 1` bytes; the `0 < N` conjunct of the guard makes
the definition total (the source loop, which has no such guard, terminates for
every `N ≥ 1`, the only case the crate admits). -/
def writeLoop (H : Hasher σ) (N : Nat) : Nat → σ → List Nat → σ × List Nat
  | 0, s, bytes => (s, bytes)
  | fuel + 1, s, bytes =>
      if 0 < N ∧ N ≤ bytes.length then
        writeLoop H N fuel (H.write s (bytes.take N)) (bytes.drop N)
      else
        (s, bytes)

/-- `PartitionedHasher::write`, transliterated from the source: (1) if the
carry buffer is non-empty, borrow up to `needed = N - buffer.len()` bytes from
the front of the input into the buffer, returning early when the buffer is
still short of `N`, and otherwise flushing the full buffer as one partition;
(2) emit as many full `N`-byte partitions from the remaining input as possible;
(3) append the remainder to the (now empty) buffer. -/
def PartitionedHasher.write (H : Hasher σ) (N : Nat) (st : PartitionedHasher σ)
    (bytes : List Nat) : PartitionedHasher σ :=
  if st.buffer.isEmpty then
    let p := writeLoop H N bytes.length st.hasher bytes
    ⟨p.1, st.buffer ++ p.2⟩
  else
    let needed := N - st.buffer.length
    let borrowed := bytes.take needed
    let buf1 := st.buffer ++ borrowed
    if buf1.length ≠ N then
      ⟨st.hasher, buf1⟩
    else
      let s1 := H.write st.hasher (buf1.take N)
      let rest := bytes.drop borrowed.length
      let p := writeLoop H N rest.length s1 rest
      ⟨p.1, p.2⟩

/-- `PartitionedHasher::finish`: the chunk-hasher digest of the carry buffer. -/
def PartitionedHasher.finish (H : Hasher σ) (st : PartitionedHasher σ) : Nat :=
  H.finish st.hasher st.buffer

/-- `finish` with its receiver made explicit: the source method takes `&self`,
so the embedding returns the digest together with the (unchanged) state. -/
def PartitionedHasher.finishOp (H : Hasher σ) (st : PartitionedHasher σ) :
    Nat × PartitionedHasher σ :=
  (H.finish st.hasher st.buffer, st)

/-- A sequence of `write` calls, applied in order. -/
def PartitionedHasher.writeAll (H : Hasher σ) (N : Nat) (st : PartitionedHasher σ)
    (bss : List (List Nat)) : PartitionedHasher σ :=
  bss.foldl (PartitionedHasher.write H N) st

/-- The emission loop with the fixed-size conversion of the source made
explicit: `chunk.try_into().unwrap()` succeeds only if the chunk has exactly
`N` bytes; a violated bound aborts with `none`. -/
def writeLoopChecked (H : Hasher σ) (N : Nat) :
    Nat → σ → List Nat → Option (σ × List Nat)
  | 0, s, bytes => some (s, bytes)
  | fuel + 1, s, bytes =>
      if 0 < N ∧ N ≤ bytes.length then
        let chunk := bytes.take N
        if chunk.length = N then
          writeLoopChecked H N fuel (H.write s chunk) (bytes.drop N)
        else
          none
      else
        some (s, bytes)

/-- `write` with every partial operation of the source made explicit: the
re-slice `bytes[borrowed.len()..]` requires `borrowed.len() ≤ bytes.len()`,
the copy of `self.buffer[..N]` into the stack array requires the buffer to
hold at least `N` bytes and the copied slice to have length exactly `N`, and
the loop requires each chunk to have exactly `N` bytes.  Any violated bound
yields `none` (the panic of the source). -/
def PartitionedHasher.writeChecked (H : Hasher σ) (N : Nat)
    (st : PartitionedHasher σ) (bytes : List Nat) :
    Option (PartitionedHasher σ) :=
  if st.buffer.isEmpty then
    (writeLoopChecked H N bytes.length st.hasher bytes).map fun p =>
      ⟨p.1, st.buffer ++ p.2⟩
  else
    let needed := N - st.buffer.length
    let borrowed := bytes.take needed
    let buf1 := st.buffer ++ borrowed
    if buf1.length ≠ N then
      some ⟨st.hasher, buf1⟩
    else
      if N ≤ buf1.length ∧ (buf1.take N).length = N ∧ borrowed.length ≤ bytes.length then
        let s1 := H.write st.hasher (buf1.take N)
        let rest := bytes.drop borrowed.length
        (writeLoopChecked H N rest.length s1 rest).map fun p => ⟨p.1, p.2⟩
      else
        none

/-- The successive `N`-byte slices of `l`, from the front: slice `i` holds the
bytes at positions `[i*N, i*N + N)`; there are `l.length / N` of them. -/
def chunks (N : Nat) (l : List Nat) : List (List Nat) :=
  (List.range (l.length / N)).map fun i => (l.drop (i * N)).take N

/-- One-shot absorption of a byte stream: the fold of the chunk-hasher write
over the full partitions of `l`, paired with the unconsumed tail. -/
def absorb (H : Hasher σ) (N : Nat) (s : σ) (l : List Nat) : σ × List Nat :=
  ((chunks N l).foldl H.write s, l.drop (l.length / N * N))

/-- `u64::from_le_bytes` on a list of byte values (little-endian). -/
def u64FromLe (bytes : List Nat) : Nat :=
  bytes.foldr (fun b acc => b + 256 * acc) 0

/-- The `Simple` chunk hasher of the source tests: the state is a `u64`
accumulator; `write` wrapping-adds the partition read as a little-endian word;
`finish` shifts the accumulator left by the tail length, truncated to 64 bits
(the tail length is below 64 in every reachable state, so the Rust shift never
overflows). -/
def Simple : Hasher Nat where
  write := fun s bytes => (s + u64FromLe bytes) % 2 ^ 64
  finish := fun s bytes => s * 2 ^ bytes.length % 2 ^ 64

/-- The 13 bytes of the ASCII string of the source tests. -/
def helloWorld : List Nat :=
  [72, 101, 108, 108, 111, 44, 32, 119, 111, 114, 108, 100, 33]

/-- A chunk hasher whose state records the list of partitions it has consumed,
used to observe exactly which consume calls `write` makes. -/
def traceHasher : Hasher (List (List Nat)) where
  write := fun s bytes => s ++ [bytes]
  finish := fun s _ => s.length

/-- A chunk hasher that counts its consume calls: one per iteration of the
emission loop. -/
def countHasher : Hasher Nat where
  write := fun n _ => n + 1
  finish := fun n _ => n

theorem div_mul_eq_sub_mod (a b : Nat) : a / b * b = a - a % b := by
  have h1 := Nat.div_add_mod a b
  have h2 : a / b * b = b * (a / b) := Nat.mul_comm ..
  have h3 := Nat.mod_le a b
  omega

theorem chunks_of_lt {N : Nat} {l : List Nat} (h : l.length < N) : chunks N l = [] := by
  simp [chunks, Nat.div_eq_of_lt h]

theorem length_chunks (N : Nat) (l : List Nat) : (chunks N l).length = l.length / N := by
  simp [chunks]

theorem chunks_cons {N : Nat} {l : List Nat} (hN : 0 < N) (h : N ≤ l.length) :
    chunks N l = l.take N :: chunks N (l.drop N) := by
  have hdiv : l.length / N = (l.length - N) / N + 1 := Nat.div_eq_sub_div hN h
  rw [chunks, chunks, List.length_drop, hdiv, List.range_succ_eq_map, List.map_cons,
    List.map_map]
  refine congrArg₂ _ (by simp) (List.map_congr_left fun i _ => ?_)
  simp [Function.comp_apply, List.drop_drop, Nat.succ_mul, Nat.add_comm]

theorem chunks_mem_length {N : Nat} {l : List Nat} (hN : 0 < N) {c : List Nat}
    (hc : c ∈ chunks N l) : c.length = N := by
  rw [chunks] at hc
  obtain ⟨i, hi, rfl⟩ := List.mem_map.1 hc
  rw [List.mem_range] at hi
  have h2 : (i + 1) * N ≤ l.length / N * N := Nat.mul_le_mul hi (le_refl N)
  have h3 := Nat.div_mul_le_self l.length N
  have h4 : (i + 1) * N = i * N + N := Nat.succ_mul ..
  simp only [List.length_take, List.length_drop]
  omega

theorem chunks_get (N : Nat) (l : List Nat) (i : Nat) (hi : i < (chunks N l).length) :
    (chunks N l).get ⟨i, hi⟩ = (l.drop (i * N)).take N := by
  simp [chunks]

theorem absorb_of_lt {H : Hasher σ} {N : Nat} {s : σ} {l : List Nat}
    (h : l.length < N) : absorb H N s l = (s, l) := by
  simp [absorb, chunks_of_lt h, Nat.div_eq_of_lt h]

theorem absorb_step {H : Hasher σ} {N : Nat} (hN : 0 < N) {s : σ} {l : List Nat}
    (h : N ≤ l.length) :
    absorb H N s l = absorb H N (H.write s (l.take N)) (l.drop N) := by
  have hdiv : l.length / N = (l.length - N) / N + 1 := Nat.div_eq_sub_div hN h
  rw [absorb, absorb, chunks_cons hN h, List.foldl_cons, List.length_drop,
    List.drop_drop, hdiv, Nat.succ_mul, Nat.add_comm N ((l.length - N) / N * N)]

theorem absorb_snd_length (H : Hasher σ) (N : Nat) (s : σ) (l : List Nat) :
    (absorb H N s l).2.length = l.length % N := by
  simp only [absorb, List.length_drop, div_mul_eq_sub_mod]
  have := Nat.mod_le l.length N
  omega

theorem writeLoop_eq_absorb {H : Hasher σ} {N : Nat} (hN : 0 < N) :
    ∀ (fuel : Nat) (s : σ) (l : List Nat), l.length ≤ fuel →
      writeLoop H N fuel s l = absorb H N s l := by
  intro fuel
  induction fuel with
  | zero =>
      intro s l hfuel
      have hl : l = [] := List.eq_nil_of_length_eq_zero (Nat.le_zero.1 hfuel)
      subst hl
      rw [writeLoop, absorb_of_lt (by simpa using hN)]
  | succ fuel ih =>
      intro s l hfuel
      by_cases h : N ≤ l.length
      · rw [writeLoop, if_pos ⟨hN, h⟩,
          ih _ _ (by simp only [List.length_drop]; omega), absorb_step hN h]
      · rw [writeLoop, if_neg (by tauto), absorb_of_lt (by omega)]

theorem absorb_append {H : Hasher σ} {N : Nat} (hN : 0 < N) :
    ∀ (n : Nat) (a b : List Nat) (s : σ), a.length ≤ n →
      absorb H N s (a ++ b) =
        absorb H N (absorb H N s a).1 ((absorb H N s a).2 ++ b) := by
  intro n
  induction n with
  | zero =>
      intro a b s hn
      have ha : a = [] := List.eq_nil_of_length_eq_zero (Nat.le_zero.1 hn)
      subst ha
      have h0 : absorb H N s ([] : List Nat) = (s, []) :=
        absorb_of_lt (by simpa using hN)
      simp [h0]
  | succ n ih =>
      intro a b s hn
      by_cases h : N ≤ a.length
      · have hab : N ≤ (a ++ b).length := by
          simp only [List.length_append]; omega
        rw [absorb_step hN hab, absorb_step hN h]
        have htake : (a ++ b).take N = a.take N := by
          rw [List.take_append_eq_append_take, Nat.sub_eq_zero_of_le h,
            List.take_zero, List.append_nil]
        have hdrop : (a ++ b).drop N = a.drop N ++ b := by
          rw [List.drop_append_eq_append_drop, Nat.sub_eq_zero_of_le h,
            List.drop_zero]
        rw [htake, hdrop, ih _ _ _ (by simp only [List.length_drop]; omega)]
      · have h0 : absorb H N s a = (s, a) := absorb_of_lt (by omega)
        rw [h0]

theorem write_eq_absorb {H : Hasher σ} {N : Nat} (hN : 0 < N)
    {st : PartitionedHasher σ} (hinv : st.buffer.length < N) (bytes : List Nat) :
    PartitionedHasher.write H N st bytes =
      ⟨(absorb H N st.hasher (st.buffer ++ bytes)).1,
        (absorb H N st.hasher (st.buffer ++ bytes)).2⟩ := by
  obtain ⟨s, buf⟩ := st
  simp only at hinv
  by_cases hb : buf = []
  · subst hb
    simp only [PartitionedHasher.write, List.isEmpty_nil, if_true, List.nil_append]
    rw [writeLoop_eq_absorb hN _ _ _ (le_refl _)]
  · have hbe : buf.isEmpty = false := by
      cases buf with
      | nil => exact absurd rfl hb
      | cons c cs => rfl
    have hL : 0 < buf.length := List.length_pos.2 hb
    simp only [PartitionedHasher.write, hbe, Bool.false_eq_true, if_false]
    by_cases hshort : buf.length + bytes.length < N
    · have htk : bytes.take (N - buf.length) = bytes :=
        List.take_of_length_le (by omega)
      rw [htk, if_pos (by simp only [List.length_append]; omega),
        absorb_of_lt (by simp only [List.length_append]; omega)]
    · have hlen : (bytes.take (N - buf.length)).length = N - buf.length := by
        simp only [List.length_take]; omega
      have hbuf1 : (buf ++ bytes.take (N - buf.length)).length = N := by
        simp only [List.length_append, hlen]; omega
      rw [if_neg (by omega), hlen]
      rw [writeLoop_eq_absorb hN _ _ _ (le_refl _)]
      have hstep : absorb H N s (buf ++ bytes) =
          absorb H N (H.write s ((buf ++ bytes).take N)) ((buf ++ bytes).drop N) :=
        absorb_step hN (by simp only [List.length_append]; omega)
      have htake : (buf ++ bytes).take N = buf ++ bytes.take (N - buf.length) := by
        rw [List.take_append_eq_append_take,
          List.take_of_length_le (le_of_lt hinv)]
      have hdrop : (buf ++ bytes).drop N = bytes.drop (N - buf.length) := by
        rw [List.drop_append_eq_append_drop,
          List.drop_eq_nil_of_le (le_of_lt hinv), List.nil_append]
      rw [hstep, htake, hdrop]
      rw [List.take_of_length_le (le_of_eq hbuf1)]

theorem writeAll_eq_absorb {H : Hasher σ} {N : Nat} (hN : 0 < N) :
    ∀ (bss : List (List Nat)) (st : PartitionedHasher σ), st.buffer.length < N →
      PartitionedHasher.writeAll H N st bss =
        ⟨(absorb H N st.hasher (st.buffer ++ bss.flatten)).1,
          (absorb H N st.hasher (st.buffer ++ bss.flatten)).2⟩ := by
  intro bss
  induction bss with
  | nil =>
      intro st hinv
      simp only [PartitionedHasher.writeAll, List.foldl_nil, List.flatten_nil,
        List.append_nil, absorb_of_lt hinv]
  | cons a bss ih =>
      intro st hinv
      have hstep : PartitionedHasher.writeAll H N st (a :: bss) =
          PartitionedHasher.writeAll H N (PartitionedHasher.write H N st a) bss := rfl
      rw [hstep, write_eq_absorb hN hinv a,
        ih _ (by simpa [absorb_snd_length] using Nat.mod_lt _ hN)]
      simp only
      rw [← absorb_append hN (st.buffer ++ a).length _ _ _ (le_refl _),
        List.flatten_cons, List.append_assoc]

theorem foldl_trace_eq_append :
    ∀ (l acc : List (List Nat)), l.foldl traceHasher.write acc = acc ++ l := by
  intro l
  induction l with
  | nil => intro acc; simp
  | cons c l ih =>
      intro acc
      rw [List.foldl_cons, ih]
      simp [traceHasher]

theorem foldl_count_eq_length :
    ∀ (l : List (List Nat)) (k : Nat), l.foldl countHasher.write k = k + l.length := by
  intro l
  induction l with
  | nil => intro k; simp
  | cons c l ih =>
      intro k
      rw [List.foldl_cons, ih]
      simp [countHasher]
      omega

theorem writeLoopChecked_eq_some {H : Hasher σ} {N : Nat} (hN : 0 < N) :
    ∀ (fuel : Nat) (s : σ) (l : List Nat),
      writeLoopChecked H N fuel s l = some (writeLoop H N fuel s l) := by
  intro fuel
  induction fuel with
  | zero => intro s l; rfl
  | succ fuel ih =>
      intro s l
      by_cases h : N ≤ l.length
      · have hc : (l.take N).length = N := by
          simp only [List.length_take]; omega
        simp [writeLoopChecked, writeLoop, hN, h, hc, ih]
      · simp [writeLoopChecked, writeLoop, h]

/-- Claim C1 (split-invariance): for every byte stream and every way of
splitting it into an ordered list of sub-slices, one write of the whole stream
and successive writes of the sub-slices leave the adapter in states with equal
finish results; equivalently, write of a concatenation has the same effect as
two writes in sequence, from any state satisfying the carry invariant. -/
theorem split_invariance {σ : Type} (H : Hasher σ) (N : Nat) (hN : 0 < N) (s0 : σ)
    (bss : List (List Nat)) (st : PartitionedHasher σ) (a b : List Nat)
    (hinv : st.buffer.length < N) :
    PartitionedHasher.finish H
        (PartitionedHasher.writeAll H N (PartitionedHasher.new s0) bss) =
      PartitionedHasher.finish H
        (PartitionedHasher.write H N (PartitionedHasher.new s0) bss.flatten)
    ∧ PartitionedHasher.write H N (PartitionedHasher.write H N st a) b =
        PartitionedHasher.write H N st (a ++ b) := by
  constructor
  · rw [writeAll_eq_absorb hN bss _ (by simpa using hN),
      write_eq_absorb hN (by simpa using hN) bss.flatten]
  · have hrw : PartitionedHasher.write H N
        ⟨(absorb H N st.hasher (st.buffer ++ a)).1,
          (absorb H N st.hasher (st.buffer ++ a)).2⟩ b =
        ⟨(absorb H N (absorb H N st.hasher (st.buffer ++ a)).1
            ((absorb H N st.hasher (st.buffer ++ a)).2 ++ b)).1,
          (absorb H N (absorb H N st.hasher (st.buffer ++ a)).1
            ((absorb H N st.hasher (st.buffer ++ a)).2 ++ b)).2⟩ :=
      write_eq_absorb hN
        (by simpa [absorb_snd_length] using Nat.mod_lt (st.buffer ++ a).length hN) b
    rw [write_eq_absorb hN hinv a, hrw, write_eq_absorb hN hinv (a ++ b)]
    rw [← absorb_append hN (st.buffer ++ a).length _ _ _ (le_refl _),
      List.append_assoc]

/-- Claim C2 (central partition-emission guarantee): after any sequence of
writes whose concatenation is the stream B, the chunk hasher state is the fold
of its write over the successive N-byte slices of B (observed literally for
the trace hasher); those slices number B.length / N, each has exactly N bytes,
and slice i is the bytes at positions i*N..i*N+N of B; the carry buffer holds
exactly the final B.length % N bytes of B, in order. -/
theorem central_partition_emission {σ : Type} (H : Hasher σ) (N : Nat) (hN : 0 < N)
    (s0 : σ) (bss : List (List Nat)) :
    (PartitionedHasher.writeAll H N (PartitionedHasher.new s0) bss).hasher =
        (chunks N bss.flatten).foldl H.write s0
    ∧ (PartitionedHasher.writeAll traceHasher N (PartitionedHasher.new []) bss).hasher =
        chunks N bss.flatten
    ∧ (chunks N bss.flatten).length = bss.flatten.length / N
    ∧ (∀ c ∈ chunks N bss.flatten, c.length = N)
    ∧ (∀ (i : Nat) (hi : i < (chunks N bss.flatten).length),
        (chunks N bss.flatten).get ⟨i, hi⟩ = (bss.flatten.drop (i * N)).take N)
    ∧ (PartitionedHasher.writeAll H N (PartitionedHasher.new s0) bss).buffer =
        bss.flatten.drop (bss.flatten.length - bss.flatten.length % N)
    ∧ (PartitionedHasher.writeAll H N (PartitionedHasher.new s0) bss).buffer.length =
        bss.flatten.length % N := by
  refine ⟨?_, ?_, length_chunks N bss.flatten, fun c hc => chunks_mem_length hN hc,
    chunks_get N bss.flatten, ?_, ?_⟩
  · rw [writeAll_eq_absorb hN bss _ (by simpa using hN)]
    simp [PartitionedHasher.new, absorb]
  · rw [writeAll_eq_absorb hN bss _ (by simpa using hN)]
    simp [PartitionedHasher.new, absorb, foldl_trace_eq_append]
  · rw [writeAll_eq_absorb hN bss _ (by simpa using hN)]
    simp only [PartitionedHasher.new, absorb, List.nil_append, div_mul_eq_sub_mod]
  · rw [writeAll_eq_absorb hN bss _ (by simpa using hN)]
    simp [PartitionedHasher.new, absorb_snd_length]

/-- Claim C3 (carry-buffer length invariant): every state reachable from new
by writes (finish does not change the state) has carry length in [0, N), and a
single write preserves the invariant from any state satisfying it. -/
theorem carry_invariant {σ : Type} (H : Hasher σ) (N : Nat) (hN : 0 < N) (s0 : σ)
    (bss : List (List Nat)) (st : PartitionedHasher σ) (b : List Nat)
    (hinv : st.buffer.length < N) :
    (PartitionedHasher.writeAll H N (PartitionedHasher.new s0) bss).buffer.length < N
    ∧ (PartitionedHasher.write H N st b).buffer.length < N
    ∧ (PartitionedHasher.finishOp H st).2 = st := by
  refine ⟨?_, ?_, rfl⟩
  · rw [writeAll_eq_absorb hN bss _ (by simpa using hN)]
    simpa [PartitionedHasher.new, absorb_snd_length] using
      Nat.mod_lt bss.flatten.length hN
  · rw [write_eq_absorb hN hinv b]
    simpa [absorb_snd_length] using Nat.mod_lt (st.buffer ++ b).length hN

/-- Claim C4 (finish is read-only, repeatable and exact): finish returns the
chunk hasher digest of the current carry buffer, leaves the state unchanged,
and repeated calls return the same value. -/
theorem finish_frame {σ : Type} (H : Hasher σ) (st : PartitionedHasher σ) :
    (PartitionedHasher.finishOp H st).1 = H.finish st.hasher st.buffer
    ∧ (PartitionedHasher.finishOp H st).2 = st
    ∧ (PartitionedHasher.finishOp H ((PartitionedHasher.finishOp H st).2)).1 =
        (PartitionedHasher.finishOp H st).1
    ∧ PartitionedHasher.finish H st = H.finish st.hasher st.buffer :=
  ⟨rfl, rfl, rfl, rfl⟩

/-- Claim C5, counterexample: the digest of writing the 13 test bytes with the
Simple hasher at partition size 8 is not the claimed sum of two little-endian
words shifted by 5 — the second word, built from the 5 tail bytes, is never
added by the code; the tail contributes only the shift amount. -/
theorem byte_at_a_time_formula_counterexample :
    ¬ PartitionedHasher.finish Simple
        (PartitionedHasher.write Simple 8 (PartitionedHasher.new 0) helloWorld) =
      (u64FromLe (helloWorld.take 8) + u64FromLe (helloWorld.drop 8 ++ [0, 0, 0]))
          % 2 ^ 64 * 2 ^ 5 % 2 ^ 64 := by
  decide

/-- Claim C5 as amended: with S = 8 and the Simple chunk hasher, writing the
13 test bytes in one call and one byte per call yield the same digest, that
digest is 0xE4058DED8D8CA900, and it equals the little-endian 8-byte word
formed by the first 8 bytes, taken mod 2^64, left-shifted by 5 (the length of
the 5-byte tail). -/
theorem byte_at_a_time_equivalence :
    PartitionedHasher.finish Simple
        (PartitionedHasher.write Simple 8 (PartitionedHasher.new 0) helloWorld) =
      PartitionedHasher.finish Simple
        (PartitionedHasher.writeAll Simple 8 (PartitionedHasher.new 0)
          (helloWorld.map fun b => [b]))
    ∧ PartitionedHasher.finish Simple
        (PartitionedHasher.write Simple 8 (PartitionedHasher.new 0) helloWorld) =
      0xE4058DED8D8CA900
    ∧ PartitionedHasher.finish Simple
        (PartitionedHasher.write Simple 8 (PartitionedHasher.new 0) helloWorld) =
      u64FromLe (helloWorld.take 8) % 2 ^ 64 * 2 ^ 5 % 2 ^ 64 := by
  refine ⟨?_, ?_, ?_⟩ <;> decide

/-- Claim C6 (totality and termination): for partition size N ≥ 1 the emission
loop is insensitive to any fuel of at least one unit per input byte — the
recursion always reaches its base within the input length, which is the
termination of the source loop — and, instantiated with the counting hasher,
the loop performs exactly bytes.length / N iterations (one consume call
each). -/
theorem write_total {σ : Type} (H : Hasher σ) (N : Nat) (hN : 0 < N) (s : σ)
    (bytes : List Nat) (fuel : Nat) (hfuel : bytes.length ≤ fuel) :
    writeLoop H N fuel s bytes = writeLoop H N bytes.length s bytes
    ∧ (writeLoop countHasher N bytes.length 0 bytes).1 = bytes.length / N := by
  refine ⟨?_, ?_⟩
  · rw [writeLoop_eq_absorb hN fuel s bytes hfuel,
      writeLoop_eq_absorb hN bytes.length s bytes (le_refl _)]
  · rw [writeLoop_eq_absorb hN bytes.length 0 bytes (le_refl _)]
    show (chunks N bytes).foldl countHasher.write 0 = _
    rw [foldl_count_eq_length, length_chunks]
    omega

/-- Claim C7 (drain-carry short write): when the carry is non-empty and the
incoming bytes do not fill it to N, write leaves the chunk hasher untouched
(for every chunk hasher, so no consume call occurs) and the carry becomes the
old carry followed by all the incoming bytes. -/
theorem drain_carry_short_write {σ : Type} (H : Hasher σ) (N : Nat)
    (st : PartitionedHasher σ) (b : List Nat) (hne : st.buffer ≠ [])
    (hshort : st.buffer.length + b.length < N) :
    PartitionedHasher.write H N st b = ⟨st.hasher, st.buffer ++ b⟩ := by
  have hpos : 0 < st.buffer.length := List.length_pos.2 hne
  rw [write_eq_absorb (by omega) (by omega) b]
  have h0 : absorb H N st.hasher (st.buffer ++ b) = (st.hasher, st.buffer ++ b) :=
    absorb_of_lt (by simp only [List.length_append]; omega)
  rw [h0]

/-- Claim C8 (empty stream digest): a fresh adapter finished with no writes
returns the chunk hasher digest of the empty tail on the initial state. -/
theorem empty_stream_digest {σ : Type} (H : Hasher σ) (s0 : σ) :
    PartitionedHasher.finish H (PartitionedHasher.new s0) = H.finish s0 [] := rfl

/-- Claim C9 (empty write is a no-op): from any state satisfying the carry
invariant, writing the empty byte sequence changes neither the carry buffer
nor the chunk hasher state. -/
theorem empty_write_noop {σ : Type} (H : Hasher σ) (N : Nat)
    (st : PartitionedHasher σ) (hinv : st.buffer.length < N) :
    PartitionedHasher.write H N st [] = st := by
  have hN : 0 < N := by omega
  rw [write_eq_absorb hN hinv []]
  have h0 : absorb H N st.hasher (st.buffer ++ []) = (st.hasher, st.buffer) := by
    rw [List.append_nil]
    exact absorb_of_lt hinv
  rw [h0]

/-- Claim C10 (panic-freedom of write): under the carry invariant and N ≥ 1,
the variant of write that checks every partial operation of the source (the
slice re-index, the buffer copy, the fixed-size chunk conversion) never takes
an error branch: it returns exactly the unchecked result. -/
theorem write_panic_free {σ : Type} (H : Hasher σ) (N : Nat) (hN : 0 < N)
    (st : PartitionedHasher σ) (bytes : List Nat) (hinv : st.buffer.length < N) :
    PartitionedHasher.writeChecked H N st bytes =
      some (PartitionedHasher.write H N st bytes) := by
  obtain ⟨s, buf⟩ := st
  simp only at hinv
  by_cases hb : buf = []
  · subst hb
    simp [PartitionedHasher.writeChecked, PartitionedHasher.write,
      writeLoopChecked_eq_some hN]
  · have hbe : buf.isEmpty = false := by
      cases buf with
      | nil => exact absurd rfl hb
      | cons c cs => rfl
    simp only [PartitionedHasher.writeChecked, PartitionedHasher.write, hbe,
      Bool.false_eq_true, if_false]
    by_cases hcond : (buf ++ bytes.take (N - buf.length)).length ≠ N
    · rw [if_pos hcond, if_pos hcond]
    · rw [if_neg hcond, if_neg hcond]
      push_neg at hcond
      have hguard : N ≤ (buf ++ bytes.take (N - buf.length)).length
          ∧ ((buf ++ bytes.take (N - buf.length)).take N).length = N
          ∧ (bytes.take (N - buf.length)).length ≤ bytes.length := by
        refine ⟨le_of_eq hcond.symm, ?_, ?_⟩
        · rw [List.take_of_length_le (le_of_eq hcond)]
          exact hcond
        · simp only [List.length_take]
          omega
      rw [if_pos hguard, writeLoopChecked_eq_some hN]
      rfl

/-- Witness for C1 at S = 8, the Simple hasher, a concrete split and a
concrete mid-stream state. -/
theorem split_invariance_witness :
    PartitionedHasher.finish Simple
        (PartitionedHasher.writeAll Simple 8 (PartitionedHasher.new 0)
          [[1, 2, 3], [4, 5, 6, 7, 8, 9]]) =
      PartitionedHasher.finish Simple
        (PartitionedHasher.write Simple 8 (PartitionedHasher.new 0)
          ([[1, 2, 3], [4, 5, 6, 7, 8, 9]] : List (List Nat)).flatten)
    ∧ PartitionedHasher.write Simple 8
          (PartitionedHasher.write Simple 8 ⟨0, [7]⟩ [1, 2]) [3, 4, 5, 6, 7, 8, 9] =
        PartitionedHasher.write Simple 8 ⟨0, [7]⟩
          ([1, 2] ++ [3, 4, 5, 6, 7, 8, 9]) :=
  split_invariance Simple 8 (by decide) 0 [[1, 2, 3], [4, 5, 6, 7, 8, 9]]
    ⟨0, [7]⟩ [1, 2] [3, 4, 5, 6, 7, 8, 9] (by decide)

/-- Witness for C2 at S = 8, the Simple hasher and a concrete 11-byte stream
split across two writes. -/
theorem central_partition_emission_witness :
    (PartitionedHasher.writeAll Simple 8 (PartitionedHasher.new 0)
          [[1, 2, 3, 4, 5], [6, 7, 8, 9, 10, 11]]).hasher =
        (chunks 8 ([[1, 2, 3, 4, 5], [6, 7, 8, 9, 10, 11]] :
          List (List Nat)).flatten).foldl Simple.write 0
    ∧ (PartitionedHasher.writeAll traceHasher 8 (PartitionedHasher.new [])
          [[1, 2, 3, 4, 5], [6, 7, 8, 9, 10, 11]]).hasher =
        chunks 8 ([[1, 2, 3, 4, 5], [6, 7, 8, 9, 10, 11]] :
          List (List Nat)).flatten
    ∧ (chunks 8 ([[1, 2, 3, 4, 5], [6, 7, 8, 9, 10, 11]] :
          List (List Nat)).flatten).length =
        ([[1, 2, 3, 4, 5], [6, 7, 8, 9, 10, 11]] :
          List (List Nat)).flatten.length / 8
    ∧ (∀ c ∈ chunks 8 ([[1, 2, 3, 4, 5], [6, 7, 8, 9, 10, 11]] :
          List (List Nat)).flatten, c.length = 8)
    ∧ (∀ (i : Nat) (hi : i < (chunks 8 ([[1, 2, 3, 4, 5], [6, 7, 8, 9, 10, 11]] :
          List (List Nat)).flatten).length),
        (chunks 8 ([[1, 2, 3, 4, 5], [6, 7, 8, 9, 10, 11]] :
          List (List Nat)).flatten).get ⟨i, hi⟩ =
          (([[1, 2, 3, 4, 5], [6, 7, 8, 9, 10, 11]] :
            List (List Nat)).flatten.drop (i * 8)).take 8)
    ∧ (PartitionedHasher.writeAll Simple 8 (PartitionedHasher.new 0)
          [[1, 2, 3, 4, 5], [6, 7, 8, 9, 10, 11]]).buffer =
        ([[1, 2, 3, 4, 5], [6, 7, 8, 9, 10, 11]] :
          List (List Nat)).flatten.drop
          (([[1, 2, 3, 4, 5], [6, 7, 8, 9, 10, 11]] :
            List (List Nat)).flatten.length -
           ([[1, 2, 3, 4, 5], [6, 7, 8, 9, 10, 11]] :
            List (List Nat)).flatten.length % 8)
    ∧ (PartitionedHasher.writeAll Simple 8 (PartitionedHasher.new 0)
          [[1, 2, 3, 4, 5], [6, 7, 8, 9, 10, 11]]).buffer.length =
        ([[1, 2, 3, 4, 5], [6, 7, 8, 9, 10, 11]] :
          List (List Nat)).flatten.length % 8 :=
  central_partition_emission Simple 8 (by decide) 0
    [[1, 2, 3, 4, 5], [6, 7, 8, 9, 10, 11]]

/-- Witness for C3 at S = 8, the Simple hasher, a concrete write history and a
concrete mid-stream state. -/
theorem carry_invariant_witness :
    (PartitionedHasher.writeAll Simple 8 (PartitionedHasher.new 0)
          [[1, 2, 3, 4, 5, 6, 7, 8, 9]]).buffer.length < 8
    ∧ (PartitionedHasher.write Simple 8 ⟨0, [1, 2, 3]⟩
          [4, 5, 6, 7, 8]).buffer.length < 8
    ∧ (PartitionedHasher.finishOp Simple
          (⟨0, [1, 2, 3]⟩ : PartitionedHasher Nat)).2 = ⟨0, [1, 2, 3]⟩ :=
  carry_invariant Simple 8 (by decide) 0 [[1, 2, 3, 4, 5, 6, 7, 8, 9]]
    ⟨0, [1, 2, 3]⟩ [4, 5, 6, 7, 8] (by decide)

/-- Witness for C6 at S = 8 with a 10-byte input and surplus fuel. -/
theorem write_total_witness :
    writeLoop Simple 8 12 0 [1, 2, 3, 4, 5, 6, 7, 8, 9, 10] =
        writeLoop Simple 8 ([1, 2, 3, 4, 5, 6, 7, 8, 9, 10] :
          List Nat).length 0 [1, 2, 3, 4, 5, 6, 7, 8, 9, 10]
    ∧ (writeLoop countHasher 8 ([1, 2, 3, 4, 5, 6, 7, 8, 9, 10] :
          List Nat).length 0 [1, 2, 3, 4, 5, 6, 7, 8, 9, 10]).1 =
        ([1, 2, 3, 4, 5, 6, 7, 8, 9, 10] : List Nat).length / 8 :=
  write_total Simple 8 (by decide) 0 [1, 2, 3, 4, 5, 6, 7, 8, 9, 10] 12 (by decide)

/-- Witness for C7: a 2-byte carry and a 2-byte write at S = 8. -/
theorem drain_carry_short_write_witness :
    PartitionedHasher.write Simple 8 ⟨0, [1, 2]⟩ [3, 4] = ⟨0, [1, 2] ++ [3, 4]⟩ :=
  drain_carry_short_write Simple 8 ⟨0, [1, 2]⟩ [3, 4] (by decide) (by decide)

/-- Witness for C9: an empty write at S = 8 from a 3-byte carry. -/
theorem empty_write_noop_witness :
    PartitionedHasher.write Simple 8 ⟨5, [1, 2, 3]⟩ [] = ⟨5, [1, 2, 3]⟩ :=
  empty_write_noop Simple 8 ⟨5, [1, 2, 3]⟩ (by decide)

/-- Witness for C10: a 3-byte carry and a 14-byte write at S = 8, exercising
the carry flush, the emission loop and the remainder store. -/
theorem write_panic_free_witness :
    PartitionedHasher.writeChecked Simple 8 ⟨0, [1, 2, 3]⟩
        [4, 5, 6, 7, 8, 9, 10, 11, 12, 13, 14, 15, 16, 17] =
      some (PartitionedHasher.write Simple 8 ⟨0, [1, 2, 3]⟩
        [4, 5, 6, 7, 8, 9, 10, 11, 12, 13, 14, 15, 16, 17]) :=
  write_panic_free Simple 8 (by decide) ⟨0, [1, 2, 3]⟩
    [4, 5, 6, 7, 8, 9, 10, 11, 12, 13, 14, 15, 16, 17] (by decide)

end Bufhash
